import Mathlib

/-!
Shallow embedding of the allcoder configuration-toolkit core
(src/src/merge.ts, src/src/redact.ts, src/src/formats.ts).

A parsed configuration document is modelled as an inductive tree `Doc`:
JavaScript objects become ordered association lists (insertion order
preserved, as in V8), arrays become lists, and scalars are null, booleans,
numbers and strings.  All functions are translated from the TypeScript
source, statement by statement.
-/

namespace Allcoder

/-- A parsed configuration document (the generic document value). -/
inductive Doc where
  | null : Doc
  | bool (b : Bool) : Doc
  | num (n : Int) : Doc
  | str (s : String) : Doc
  | seq (xs : List Doc) : Doc
  | map (es : List (String × Doc)) : Doc

/-- Predicate `Array.isArray(value)` on a document value. -/
def isArrayD : Doc → Bool
  | .seq _ => true
  | _ => false

/-- Predicate `isPlainObject(value)` from merge.ts / redact.ts / formats.ts. -/
def isPlainObject : Doc → Bool
  | .map _ => true
  | _ => false

/-- A document that is neither a Sequence nor a Mapping. -/
def isScalarD (d : Doc) : Bool := !(isArrayD d) && !(isPlainObject d)

/-- The `arrayStrategy` option: `"replace" | "concat"`. -/
inductive ArrayStrategy where
  | replace : ArrayStrategy
  | concat : ArrayStrategy
deriving DecidableEq

/-- Options record `MergeOptions` from merge.ts.  The optional field models the
`arrayStrategy?:` property; `none` is an absent property. -/
structure MergeOptions where
  arrayStrategy : Option ArrayStrategy := none

/-- Lookup `out[k]` on an association list (first entry wins, as a
JavaScript object has at most one entry per key). -/
def lookupKey : List (String × Doc) → String → Option Doc
  | [], _ => none
  | (k, v) :: rest, key => if k = key then some v else lookupKey rest key

/-- Assignment `out[k] = d` when `k` is already present: the entry keeps its
position and its key, only the value changes. -/
def setKey : List (String × Doc) → String → Doc → List (String × Doc)
  | [], _, _ => []
  | (k, v) :: rest, key, d =>
      if k = key then (k, d) :: rest else (k, v) :: setKey rest key d

mutual

/-- Function `mergeDeep(target, source, options)` from merge.ts.
`options.arrayStrategy` defaults to `replace` via destructuring. -/
def mergeDeep (target source : Doc) (options : MergeOptions) : Doc :=
  match target, source with
  | .seq xs, .seq ys =>
      if options.arrayStrategy.getD .replace = .concat then .seq (xs ++ ys)
      else .seq ys
  | .map te, .map se => .map (mergeEntries te se options)
  | _, _ => source
termination_by sizeOf source
decreasing_by all_goals (simp; try omega)

/-- The `for (const [k, v] of Object.entries(source))` loop of
`mergeDeep`, with `out` the accumulating result (initially a copy of
`target`'s entries). -/
def mergeEntries (out src : List (String × Doc)) (options : MergeOptions) :
    List (String × Doc) :=
  match src with
  | [] => out
  | (k, v) :: rest =>
      match lookupKey out k with
      | some prev => mergeEntries (setKey out k (mergeDeep prev v options)) rest options
      | none => mergeEntries (out ++ [(k, v)]) rest options
termination_by sizeOf src
decreasing_by all_goals (simp; try omega)

end

/-! ### Redaction engine (src/src/redact.ts) -/

/-- Options record `RedactOptions` from redact.ts.  Each `Option` field models an
optional property; `none` means the property is absent.  A compiled
`RegExp` is modelled by its `test` function `String → Bool`. -/
structure RedactOptions where
  keys : Option (List String) := none
  keyRegex : Option (String → Bool) := none
  paths : Option (List String) := none
  replacement : Option Doc := none

/-- One character of JavaScript `String.prototype.toLowerCase`, for the
ASCII range (the only characters the key lists and tests exercise). -/
def lowerChar (c : Char) : Char :=
  if 65 ≤ c.toNat ∧ c.toNat ≤ 90 then Char.ofNat (c.toNat + 32) else c

/-- Model of `s.toLowerCase()`, applied per character. -/
def toLowerCase (s : String) : String := ⟨s.data.map lowerChar⟩

/-- An ASCII whitespace character, for the model of `trim`. -/
def isWSChar (c : Char) : Bool := c = ' ' || c = '\t' || c = '\n' || c = '\r'

/-- Model of `s.trim()`: strip leading and trailing whitespace. -/
def trimString (s : String) : String :=
  ⟨((s.data.dropWhile isWSChar).reverse.dropWhile isWSChar).reverse⟩

/-- Constant `DEFAULT_KEYS` from redact.ts, verbatim. -/
def DEFAULT_KEYS : List String :=
  ["password", "pass", "secret", "token", "apiKey", "apikey", "auth",
   "authorization", "key", "privateKey", "private_key", "client_secret"]

/-- Resolution `const keys = (opts.keys ?? DEFAULT_KEYS).map((k) => k.toLowerCase())`. -/
def resolvedKeys (opts : RedactOptions) : List String :=
  (opts.keys.getD DEFAULT_KEYS).map (fun k => toLowerCase k)

/-- Resolution `new Set((opts.paths ?? []).map((p) => p.trim()).filter(Boolean))`,
kept as a list (only membership is ever queried). -/
def pathSet (opts : RedactOptions) : List String :=
  ((opts.paths.getD []).map (fun p => trimString p)).filter (fun p => p ≠ "")

/-- The replacement value: `"[REDACTED]"` unless the `replacement`
property was explicitly supplied (`hasOwnProperty` check). -/
def resolvedReplacement (opts : RedactOptions) : Doc :=
  opts.replacement.getD (.str "[REDACTED]")

/-- Rendering `[...pathAcc, k].join(".")`; sequence indices are already rendered
to decimal strings when pushed. -/
def joinPath : List String → String
  | [] => ""
  | [s] => s
  | s :: rest => s ++ "." ++ joinPath rest

/-- The redaction decision `byKey || byRegex || byPath` for the entry
with key `k` whose parent path is `pathAcc`. -/
def redactHit (opts : RedactOptions) (pathAcc : List String) (k : String) : Bool :=
  (resolvedKeys opts).contains (toLowerCase k)
  || (match opts.keyRegex with
      | some m => m k
      | none => false)
  || (pathSet opts).contains (joinPath (pathAcc ++ [k]))

mutual

/-- Function `walk(v, pathAcc)` from redact.ts. -/
def walk (opts : RedactOptions) (pathAcc : List String) : Doc → Doc
  | .seq xs => .seq (walkSeq opts pathAcc 0 xs)
  | .map es => .map (walkMap opts pathAcc es)
  | d => d
termination_by d => sizeOf d
decreasing_by all_goals (simp; try omega)

/-- Loop `v.map((item, idx) => walk(item, [...pathAcc, idx]))`, with `i`
the index of the first element of the remaining list. -/
def walkSeq (opts : RedactOptions) (pathAcc : List String) (i : Nat) :
    List Doc → List Doc
  | [] => []
  | x :: xs => walk opts (pathAcc ++ [toString i]) x :: walkSeq opts pathAcc (i + 1) xs
termination_by xs => sizeOf xs
decreasing_by all_goals (simp; try omega)

/-- The `for (const [k, val] of Object.entries(v))` loop of `walk`. -/
def walkMap (opts : RedactOptions) (pathAcc : List String) :
    List (String × Doc) → List (String × Doc)
  | [] => []
  | (k, v) :: es =>
      (k, if redactHit opts pathAcc k then resolvedReplacement opts
          else walk opts (pathAcc ++ [k]) v) :: walkMap opts pathAcc es
termination_by es => sizeOf es
decreasing_by all_goals (simp; try omega)

end

/-- Function `redact(value, opts)` from redact.ts: walk from the root with an
empty accumulated path. -/
def redact (value : Doc) (opts : RedactOptions) : Doc := walk opts [] value

/-! ### Key sorter (src/src/formats.ts) -/

/-- The comparator `([a], [b]) => a.localeCompare(b)` of `sortKeysDeep`,
as the Boolean "comes no later than" relation on entries.
`localeCompare` is modelled by the total lexicographic order on Lean
strings; any collation that is a total order has the same structural
properties. -/
def keyLe (a b : String × Doc) : Bool := decide (a.1 ≤ b.1)

/-- Function `sortKeysDeep(value)` from formats.ts: every Mapping's entries are
sorted by key (JavaScript `sort` is a stable merge sort), then each
value is recursively processed; Sequences keep their element order. -/
def sortKeysDeep : Doc → Doc
  | .seq xs => .seq (xs.attach.map fun x => sortKeysDeep x.1)
  | .map es => .map ((es.mergeSort keyLe).attach.map fun e => (e.1.1, sortKeysDeep e.1.2))
  | d => d
termination_by d => sizeOf d
decreasing_by
  · have := List.sizeOf_lt_of_mem x.2; simp; omega
  · have h1 : e.1 ∈ es := List.mem_mergeSort.1 e.2
    have := List.sizeOf_lt_of_mem h1
    obtain ⟨⟨k, v⟩, he⟩ := e
    simp at this ⊢
    omega

/-! ### Depth of a document tree, and fuel-indexed recursions.

The TypeScript functions recurse on the host call stack; a call
converges exactly when the recursion depth is bounded.  The
fuel-indexed variants below make that explicit: they return `none`
when the fuel runs out, and `some` of the result otherwise. -/

mutual

/-- Nesting depth of a document (scalars have depth 0). -/
def depthD : Doc → Nat
  | .seq xs => depthList xs + 1
  | .map es => depthEntries es + 1
  | _ => 0
termination_by d => sizeOf d
decreasing_by all_goals (simp; try omega)

/-- Maximum depth of the elements of a list of documents. -/
def depthList : List Doc → Nat
  | [] => 0
  | x :: xs => max (depthD x) (depthList xs)
termination_by xs => sizeOf xs
decreasing_by all_goals (simp; try omega)

/-- Maximum depth of the values of an entry list. -/
def depthEntries : List (String × Doc) → Nat
  | [] => 0
  | (_, v) :: es => max (depthD v) (depthEntries es)
termination_by es => sizeOf es
decreasing_by all_goals (simp; try omega)

end

mutual

/-- Variant of `mergeDeep` with an explicit recursion-depth budget: fuel is spent
on the one recursive case (both sides Mappings). -/
def mergeDeepFuel (fuel : Nat) (target source : Doc) (options : MergeOptions) :
    Option Doc :=
  match target, source with
  | .seq xs, .seq ys =>
      some (if options.arrayStrategy.getD .replace = .concat then .seq (xs ++ ys)
            else .seq ys)
  | .map te, .map se =>
      match fuel with
      | 0 => none
      | n + 1 => (mergeEntriesFuel n te se options).map Doc.map
  | _, _ => some source
termination_by (fuel, sizeOf source)
decreasing_by all_goals (simp; omega)

/-- Fuel-indexed version of `mergeEntries`. -/
def mergeEntriesFuel (fuel : Nat) (out src : List (String × Doc))
    (options : MergeOptions) : Option (List (String × Doc)) :=
  match src with
  | [] => some out
  | (k, v) :: rest =>
      match lookupKey out k with
      | some prev =>
          match mergeDeepFuel fuel prev v options with
          | some d => mergeEntriesFuel fuel (setKey out k d) rest options
          | none => none
      | none => mergeEntriesFuel fuel (out ++ [(k, v)]) rest options
termination_by (fuel, sizeOf src)
decreasing_by all_goals (simp; omega)

end

mutual

/-- Variant of `walk` with an explicit recursion-depth budget: fuel is spent on
every descent into a Sequence or Mapping. -/
def walkFuel (opts : RedactOptions) (fuel : Nat) (pathAcc : List String) :
    Doc → Option Doc
  | .seq xs =>
      match fuel with
      | 0 => none
      | n + 1 => (walkSeqFuel opts n pathAcc 0 xs).map Doc.seq
  | .map es =>
      match fuel with
      | 0 => none
      | n + 1 => (walkMapFuel opts n pathAcc es).map Doc.map
  | d => some d
termination_by d => (fuel, sizeOf d)
decreasing_by all_goals (simp; omega)

/-- Fuel-indexed version of `walkSeq`. -/
def walkSeqFuel (opts : RedactOptions) (fuel : Nat) (pathAcc : List String)
    (i : Nat) : List Doc → Option (List Doc)
  | [] => some []
  | x :: xs =>
      match walkFuel opts fuel (pathAcc ++ [toString i]) x with
      | some y => (walkSeqFuel opts fuel pathAcc (i + 1) xs).map (y :: ·)
      | none => none
termination_by xs => (fuel, sizeOf xs)
decreasing_by all_goals (simp; omega)

/-- Fuel-indexed version of `walkMap`. -/
def walkMapFuel (opts : RedactOptions) (fuel : Nat) (pathAcc : List String) :
    List (String × Doc) → Option (List (String × Doc))
  | [] => some []
  | (k, v) :: es =>
      if redactHit opts pathAcc k then
        (walkMapFuel opts fuel pathAcc es).map ((k, resolvedReplacement opts) :: ·)
      else
        match walkFuel opts fuel (pathAcc ++ [k]) v with
        | some w => (walkMapFuel opts fuel pathAcc es).map ((k, w) :: ·)
        | none => none
termination_by es => (fuel, sizeOf es)
decreasing_by all_goals (simp; omega)

end

/-- Fuel-indexed version of `redact`. -/
def redactFuel (fuel : Nat) (value : Doc) (opts : RedactOptions) : Option Doc :=
  walkFuel opts fuel [] value

/-! ### A structural induction principle for `Doc`. -/

/-- Induction on a document tree, with the inductive hypothesis
available for every Sequence element and every Mapping entry value. -/
theorem Doc.induct {P : Doc → Prop}
    (hnull : P .null) (hbool : ∀ b, P (.bool b)) (hnum : ∀ n, P (.num n))
    (hstr : ∀ s, P (.str s))
    (hseq : ∀ xs, (∀ x ∈ xs, P x) → P (.seq xs))
    (hmap : ∀ es, (∀ e ∈ es, P e.2) → P (.map es)) : ∀ d, P d
  | .null => hnull
  | .bool b => hbool b
  | .num n => hnum n
  | .str s => hstr s
  | .seq xs => hseq xs (fun x hx => Doc.induct hnull hbool hnum hstr hseq hmap x)
  | .map es => hmap es (fun e he => Doc.induct hnull hbool hnum hstr hseq hmap e.2)
termination_by d => sizeOf d
decreasing_by
  · have := List.sizeOf_lt_of_mem hx; simp; omega
  · have := List.sizeOf_lt_of_mem he
    obtain ⟨k, v⟩ := e
    simp at this ⊢
    omega

/-- The default key set as the specification lists it (eleven names,
written lower-case), for comparison with the source's `DEFAULT_KEYS`. -/
def specDefaultKeys : List String :=
  ["password", "pass", "secret", "token", "apikey", "auth",
   "authorization", "key", "privatekey", "private_key", "client_secret"]

/-- Adjacent keys strictly ascending. -/
def strictKeySorted : List (String × Doc) → Bool
  | [] => true
  | [_] => true
  | a :: b :: rest => decide (a.1 < b.1) && strictKeySorted (b :: rest)

/-- Every Mapping in the tree has pairwise-distinct keys — true of any
document coming from a JavaScript object, where keys are unique. -/
def wfDoc : Doc → Bool
  | .seq xs => xs.attach.all fun x => wfDoc x.1
  | .map es => decide ((es.map Prod.fst).Nodup) && (es.attach.all fun e => wfDoc e.1.2)
  | _ => true
termination_by d => sizeOf d
decreasing_by
  · have := List.sizeOf_lt_of_mem x.2; simp; omega
  · have := List.sizeOf_lt_of_mem e.2
    obtain ⟨⟨k, v⟩, he⟩ := e
    simp at this ⊢
    omega

/-- Every Mapping's entries in strictly ascending key order, at every
level of the tree. -/
def sortedDeep : Doc → Bool
  | .seq xs => xs.attach.all fun x => sortedDeep x.1
  | .map es => strictKeySorted es && (es.attach.all fun e => sortedDeep e.1.2)
  | _ => true
termination_by d => sizeOf d
decreasing_by
  · have := List.sizeOf_lt_of_mem x.2; simp; omega
  · have := List.sizeOf_lt_of_mem e.2
    obtain ⟨⟨k, v⟩, he⟩ := e
    simp at this ⊢
    omega

/-! ## Helper lemmas -/

theorem attach_all_eq {α : Type _} (xs : List α) (f : α → Bool) :
    (xs.attach.all fun x => f x.1) = xs.all f := by
  rw [Bool.eq_iff_iff]
  simp [List.all_eq_true, Subtype.forall]

theorem walk_null (opts : RedactOptions) (p : List String) :
    walk opts p .null = .null := by simp [walk]

theorem walk_bool (opts : RedactOptions) (p : List String) (b : Bool) :
    walk opts p (.bool b) = .bool b := by simp [walk]

theorem walk_num (opts : RedactOptions) (p : List String) (n : Int) :
    walk opts p (.num n) = .num n := by simp [walk]

theorem walk_str (opts : RedactOptions) (p : List String) (s : String) :
    walk opts p (.str s) = .str s := by simp [walk]

theorem walk_seq_eq (opts : RedactOptions) (p : List String) (xs : List Doc) :
    walk opts p (.seq xs) = .seq (walkSeq opts p 0 xs) := by simp [walk]

theorem walk_map_eq (opts : RedactOptions) (p : List String)
    (es : List (String × Doc)) :
    walk opts p (.map es) = .map (walkMap opts p es) := by simp [walk]

theorem walkMap_eq_map (opts : RedactOptions) (p : List String)
    (es : List (String × Doc)) :
    walkMap opts p es = es.map fun e =>
      (e.1, if redactHit opts p e.1 then resolvedReplacement opts
            else walk opts (p ++ [e.1]) e.2) := by
  induction es with
  | nil => simp [walkMap]
  | cons e es ih => obtain ⟨k, v⟩ := e; simp [walkMap, ih]

theorem walkSeq_id (opts : RedactOptions) :
    ∀ (xs : List Doc) (p : List String) (i : Nat),
      (∀ x ∈ xs, ∀ q, walk opts q x = x) → walkSeq opts p i xs = xs := by
  intro xs
  induction xs with
  | nil => intro p i _; simp [walkSeq]
  | cons x xs ih =>
      intro p i h
      simp only [walkSeq]
      rw [h x (by simp), ih p (i + 1) (fun y hy q => h y (by simp [hy]) q)]

theorem walkMap_id (opts : RedactOptions)
    (hhit : ∀ p k, redactHit opts p k = false) :
    ∀ (es : List (String × Doc)) (p : List String),
      (∀ e ∈ es, ∀ q, walk opts q e.2 = e.2) → walkMap opts p es = es := by
  intro es
  induction es with
  | nil => intro p _; simp [walkMap]
  | cons e es ih =>
      intro p h
      obtain ⟨k, v⟩ := e
      simp only [walkMap, hhit, if_neg]
      rw [h (k, v) (by simp), ih p (fun e he q => h e (by simp [he]) q)]
      simp

theorem walk_id_of_no_hit (opts : RedactOptions)
    (hhit : ∀ p k, redactHit opts p k = false) :
    ∀ (d : Doc) (p : List String), walk opts p d = d := by
  intro d
  induction d using Doc.induct with
  | hnull => intro p; simp [walk]
  | hbool b => intro p; simp [walk]
  | hnum n => intro p; simp [walk]
  | hstr s => intro p; simp [walk]
  | hseq xs ih => intro p; rw [walk_seq_eq, walkSeq_id opts xs p 0 ih]
  | hmap es ih => intro p; rw [walk_map_eq, walkMap_id opts hhit es p ih]

/-! ## Claim theorems -/

/-- C1: on a Mapping, `walk` replaces an entry's value with the resolved
replacement iff at least one of the three criteria holds for the entry
(case-insensitive membership of the key in the key list, the key-regex
matching the key, or the dot-joined structural path being in the path
set); a redacted entry keeps its key and receives the replacement
verbatim (no recursion into it); a non-redacted entry keeps its key and
its value is walked with the extended path; scalars and Null are
returned unchanged; `redact` is the walk from the root. -/
theorem redact_mapping_characterization (opts : RedactOptions) (p : List String) :
    (∀ es, walk opts p (.map es) = .map (es.map fun e =>
      (e.1,
        if ((opts.keys.getD DEFAULT_KEYS).map (fun k => toLowerCase k)).contains
              (toLowerCase e.1)
            || (match opts.keyRegex with | some m => m e.1 | none => false)
            || (pathSet opts).contains (joinPath (p ++ [e.1]))
        then resolvedReplacement opts
        else walk opts (p ++ [e.1]) e.2))) ∧
    walk opts p .null = .null ∧
    (∀ b, walk opts p (.bool b) = .bool b) ∧
    (∀ n, walk opts p (.num n) = .num n) ∧
    (∀ s, walk opts p (.str s) = .str s) ∧
    (∀ d, redact d opts = walk opts [] d) := by
  refine ⟨fun es => ?_, walk_null opts p, walk_bool opts p, walk_num opts p,
          walk_str opts p, fun d => rfl⟩
  rw [walk_map_eq, walkMap_eq_map]
  simp [redactHit, resolvedKeys]

/-- C3: on two Sequences, merge yields the source when the array
strategy is Replace or absent (Replace is the default), and the ordered
concatenation `target ++ source` when it is Concat. -/
theorem merge_sequences_strategy (xs ys : List Doc) :
    mergeDeep (.seq xs) (.seq ys) { arrayStrategy := none } = .seq ys ∧
    mergeDeep (.seq xs) (.seq ys) { arrayStrategy := some .replace } = .seq ys ∧
    mergeDeep (.seq xs) (.seq ys) { arrayStrategy := some .concat } = .seq (xs ++ ys) := by
  refine ⟨?_, ?_, ?_⟩ <;> simp [mergeDeep, Option.getD]

/-- C4: when the two documents are not both Sequences and not both
Mappings, merge returns the source verbatim, whatever the options. -/
theorem merge_mismatch_source_wins (t s : Doc) (o : MergeOptions)
    (h1 : (isArrayD t && isArrayD s) = false)
    (h2 : (isPlainObject t && isPlainObject s) = false) :
    mergeDeep t s o = s := by
  cases t <;> cases s <;> simp_all [isArrayD, isPlainObject, mergeDeep]

/-- Witness for C4 at concrete scalars `1 ≠ 2`, under both strategies. -/
theorem merge_mismatch_source_wins_witness :
    mergeDeep (.num 1) (.num 2) { arrayStrategy := none } = .num 2 ∧
    mergeDeep (.str "x") (.num 2) { arrayStrategy := some .concat } = .num 2 ∧
    Doc.num 1 ≠ Doc.num 2 :=
  ⟨merge_mismatch_source_wins (.num 1) (.num 2) _ (by decide) (by decide),
   merge_mismatch_source_wins (.str "x") (.num 2) _ (by decide) (by decide),
   by simp⟩

theorem resolvedKeys_none_eval (rx : Option (String → Bool))
    (ps : Option (List String)) (r : Option Doc) :
    resolvedKeys ⟨none, rx, ps, r⟩ =
      ["password", "pass", "secret", "token", "apikey", "apikey", "auth",
       "authorization", "key", "privatekey", "private_key", "client_secret"] := rfl

/-- C5 (amended): the regex criterion fires iff the supplied matcher
itself accepts the key, exactly as given — the code applies the regex
with its own case-sensitivity and performs no case folding of its own. -/
theorem redact_regex_matches_as_given
    (m : String → Bool) (ks ps : Option (List String)) (r : Option Doc)
    (p : List String) (k : String) (v : Doc) :
    redactHit ⟨ks, some m, ps, r⟩ p k =
      ((resolvedKeys ⟨ks, some m, ps, r⟩).contains (toLowerCase k) || m k
       || (pathSet ⟨ks, some m, ps, r⟩).contains (joinPath (p ++ [k]))) ∧
    redact (.map [(k, v)]) ⟨some [], some m, none, none⟩ =
      .map [(k, if m k then .str "[REDACTED]"
                else walk ⟨some [], some m, none, none⟩ [k] v)] := by
  constructor
  · simp [redactHit]
  · show walk _ [] _ = _
    rw [walk_map_eq, walkMap_eq_map]
    simp [redactHit, resolvedKeys, pathSet, resolvedReplacement]

/-- C5 counterexample: a matcher accepting exactly the string
`"secret"` (the regex `/^secret$/` with no case-insensitivity flag)
does not redact the key `"SECRET"`, which differs from a matched string
only in letter case — so the criterion is not case-insensitive. -/
theorem redact_regex_case_counterexample :
    redact (.map [("SECRET", .str "x")])
        ⟨some [], some (fun k => k == "secret"), none, none⟩ =
      .map [("SECRET", .str "x")] ∧
    (fun k => k == "secret") "secret" = true ∧
    toLowerCase "SECRET" = "secret" ∧
    ("SECRET" : String) ≠ "secret" := by
  refine ⟨?_, by decide, by decide, by decide⟩
  show walk _ [] _ = _
  rw [walk_map_eq, walkMap_eq_map]
  simp [redactHit, resolvedKeys, pathSet, walk,
        show (("SECRET" : String) == "secret") = false from by decide]

/-- C6 (amended): a Sequence is rebuilt by recursing into each element
with the index-extended path; an element is never replaced wholesale by
any criterion (key, regex, or path — path matches only apply to Mapping
entries), and a scalar element comes back unchanged. -/
theorem redact_sequence_structure (opts : RedactOptions) (p : List String) :
    (∀ xs, walk opts p (.seq xs) = .seq (walkSeq opts p 0 xs)) ∧
    (∀ i, walkSeq opts p i [] = []) ∧
    (∀ i x xs, walkSeq opts p i (x :: xs) =
       walk opts (p ++ [toString i]) x :: walkSeq opts p (i + 1) xs) ∧
    (∀ s i xs, walkSeq opts p i (.str s :: xs) =
       .str s :: walkSeq opts p (i + 1) xs) := by
  refine ⟨fun xs => walk_seq_eq opts p xs, fun i => by simp [walkSeq],
          fun i x xs => by simp [walkSeq], fun s i xs => ?_⟩
  simp [walkSeq, walk]

/-- C6 counterexample: with `paths = ["users.0"]` (and key matching
disabled), the sequence element at structural path `users.0` is *not*
replaced — the path criterion never fires on sequence elements. -/
theorem redact_path_on_sequence_element_counterexample :
    redact (.map [("users", .seq [.str "alice"])])
        ⟨some [], none, some ["users.0"], none⟩ =
      .map [("users", .seq [.str "alice"])] ∧
    "users.0" ∈ pathSet ⟨some [], none, some ["users.0"], none⟩ ∧
    Doc.str "alice" ≠ resolvedReplacement ⟨some [], none, some ["users.0"], none⟩ := by
  refine ⟨?_, ?_, ?_⟩
  · show walk _ [] _ = _
    rw [walk_map_eq, walkMap_eq_map]
    simp [redactHit, resolvedKeys, pathSet, walk, walkSeq,
          show trimString "users.0" = "users.0" from by decide,
          show joinPath ["users"] = "users" from rfl,
          show joinPath ["users", "0"] = "users.0" from by decide,
          show toString (0 : Nat) = "0" from by decide]
  · simp [pathSet, show trimString "users.0" = "users.0" from by decide]
  · simp [resolvedReplacement]

/-- C7: with no caller-supplied keys the key criterion tests exactly
the case-insensitive eleven-name default set; the default replacement
is the string `"[REDACTED]"`; an explicitly supplied replacement —
including Null — is used instead of the default. -/
theorem redact_default_keys_and_replacement (k : String) (v r : Doc) :
    ((resolvedKeys ⟨none, none, none, none⟩).contains (toLowerCase k) =
       specDefaultKeys.contains (toLowerCase k)) ∧
    resolvedReplacement ⟨none, none, none, none⟩ = .str "[REDACTED]" ∧
    (∀ ks rx ps, resolvedReplacement ⟨ks, rx, ps, some r⟩ = r) ∧
    (specDefaultKeys.contains (toLowerCase k) = true →
       redact (.map [(k, v)]) ⟨none, none, none, none⟩ =
         .map [(k, .str "[REDACTED]")]) ∧
    (specDefaultKeys.contains (toLowerCase k) = true →
       redact (.map [(k, v)]) ⟨none, none, none, some r⟩ = .map [(k, r)]) := by
  have hmem : ∀ s : String,
      s ∈ resolvedKeys ⟨none, none, none, none⟩ ↔ s ∈ specDefaultKeys := by
    intro s
    rw [resolvedKeys_none_eval]
    simp [specDefaultKeys]
  have hsame : (resolvedKeys ⟨none, none, none, none⟩).contains (toLowerCase k) =
      specDefaultKeys.contains (toLowerCase k) := by
    rw [Bool.eq_iff_iff]
    simp only [List.contains, List.elem_eq_mem, decide_eq_true_eq]
    exact hmem _
  have hred : specDefaultKeys.contains (toLowerCase k) = true →
      ∀ rep : Option Doc,
        redact (.map [(k, v)]) ⟨none, none, none, rep⟩ =
          .map [(k, resolvedReplacement ⟨none, none, none, rep⟩)] := by
    intro hk rep
    show walk _ [] _ = _
    rw [walk_map_eq, walkMap_eq_map]
    have h1 : resolvedKeys ⟨none, none, none, rep⟩ =
        resolvedKeys ⟨none, none, none, none⟩ := rfl
    have hhit : redactHit ⟨none, none, none, rep⟩ [] k = true := by
      have hk' : toLowerCase k ∈ specDefaultKeys := by
        simpa [List.contains, List.elem_eq_mem] using hk
      simp [redactHit, pathSet, h1]
      exact (hmem _).2 hk'
    simp [hhit]
  exact ⟨hsame, rfl, fun ks rx ps => rfl,
         fun hk => hred hk none, fun hk => hred hk (some r)⟩

/-- Witness for C7: `Token` is redacted under the defaults, and an
explicit Null replacement is honored. -/
theorem redact_default_keys_and_replacement_witness :
    redact (.map [("Token", .str "abc")]) ⟨none, none, none, none⟩ =
      .map [("Token", .str "[REDACTED]")] ∧
    redact (.map [("Token", .str "abc")]) ⟨none, none, none, some .null⟩ =
      .map [("Token", .null)] :=
  ⟨(redact_default_keys_and_replacement "Token" (.str "abc") .null).2.2.2.1
     (by decide),
   (redact_default_keys_and_replacement "Token" (.str "abc") .null).2.2.2.2
     (by decide)⟩

/-- C10: an explicitly empty `keys` list disables key-name redaction
(the default list is substituted only when `keys` is absent): the
decision degenerates to the regex and path criteria, and with neither
supplied, `redact` is the identity on every document. -/
theorem redact_empty_key_list (rx : Option (String → Bool))
    (ps : Option (List String)) (r : Option Doc) (p : List String) (k : String) :
    (redactHit ⟨some [], rx, ps, r⟩ p k =
       ((match rx with | some m => m k | none => false)
        || (pathSet ⟨some [], rx, ps, r⟩).contains (joinPath (p ++ [k])))) ∧
    (∀ d r', redact d ⟨some [], none, none, r'⟩ = d) := by
  constructor
  · simp [redactHit, resolvedKeys]
  · intro d r'
    exact walk_id_of_no_hit _ (fun p k => by simp [redactHit, resolvedKeys, pathSet]) d []

/-! ## Association-list lemmas for the merge engine -/

theorem lookupKey_append (l1 l2 : List (String × Doc)) (k : String) :
    lookupKey (l1 ++ l2) k =
      match lookupKey l1 k with
      | some v => some v
      | none => lookupKey l2 k := by
  induction l1 with
  | nil => simp [lookupKey]
  | cons e l1 ih =>
      obtain ⟨k0, v0⟩ := e
      by_cases h : k0 = k <;> simp [lookupKey, h, ih]

theorem lookupKey_eq_none (l : List (String × Doc)) (k : String)
    (h : k ∉ l.map Prod.fst) : lookupKey l k = none := by
  induction l with
  | nil => rfl
  | cons e l ih =>
      obtain ⟨k0, v0⟩ := e
      simp only [List.map_cons, List.mem_cons] at h
      push_neg at h
      simp [lookupKey, Ne.symm h.1, ih h.2]

theorem lookupKey_setKey_ne (l : List (String × Doc)) (k k' : String) (d : Doc)
    (h : k' ≠ k) : lookupKey (setKey l k d) k' = lookupKey l k' := by
  induction l with
  | nil => rfl
  | cons e l ih =>
      obtain ⟨k0, v0⟩ := e
      by_cases h0 : k0 = k
      · subst h0
        simp [setKey, lookupKey, Ne.symm h]
      · simp [setKey, h0, lookupKey, ih]

theorem lookupKey_setKey_self (l : List (String × Doc)) (k : String) (d prev : Doc)
    (h : lookupKey l k = some prev) : lookupKey (setKey l k d) k = some d := by
  induction l with
  | nil => simp [lookupKey] at h
  | cons e l ih =>
      obtain ⟨k0, v0⟩ := e
      by_cases h0 : k0 = k
      · subst h0
        simp [setKey, lookupKey]
      · simp only [lookupKey, if_neg h0] at h
        simp [setKey, h0, lookupKey, ih h]

theorem lookup_mergeEntries (o : MergeOptions) :
    ∀ (src out : List (String × Doc)), (src.map Prod.fst).Nodup →
      ∀ k, lookupKey (mergeEntries out src o) k =
        match lookupKey src k with
        | some sv => some ((lookupKey out k).elim sv fun tv => mergeDeep tv sv o)
        | none => lookupKey out k := by
  intro src
  induction src with
  | nil => intro out _ k; simp [mergeEntries, lookupKey]
  | cons e rest ih =>
      obtain ⟨k0, v0⟩ := e
      intro out hnd k
      simp only [List.map_cons, List.nodup_cons, List.mem_map] at hnd
      have hk0 : k0 ∉ rest.map Prod.fst := by
        intro hmem
        exact hnd.1 (by simpa using hmem)
      have hrest0 : lookupKey rest k0 = none := lookupKey_eq_none rest k0 hk0
      have hnd' : (rest.map Prod.fst).Nodup := hnd.2
      by_cases hk : k = k0
      · subst hk
        cases hout : lookupKey out k with
        | some prev =>
            simp only [mergeEntries, hout]
            rw [ih _ hnd' k, hrest0]
            simp [lookupKey, hout,
                  lookupKey_setKey_self out k (mergeDeep prev v0 o) prev hout]
        | none =>
            simp only [mergeEntries, hout]
            rw [ih _ hnd' k, hrest0]
            simp only [lookupKey_append, hout, lookupKey]
            simp [hout]
      · have hsrc : lookupKey ((k0, v0) :: rest) k = lookupKey rest k := by
          simp [lookupKey, Ne.symm hk]
        cases hout : lookupKey out k0 with
        | some prev =>
            simp only [mergeEntries, hout]
            rw [ih _ hnd' k, hsrc, lookupKey_setKey_ne out k0 k _ hk]
        | none =>
            simp only [mergeEntries, hout]
            rw [ih _ hnd' k, hsrc, lookupKey_append]
            cases h2 : lookupKey out k with
            | some v => simp [h2]
            | none => cases lookupKey rest k <;> simp [h2, lookupKey, Ne.symm hk]

/-- C2: merging two Mappings yields a Mapping whose lookup, at every
key, is: the recursive merge of the target and source values when the
key is in both; the source value when it is only in the source; and
the untouched target value when it is absent from the source. -/
theorem merge_mapping_characterization (te se : List (String × Doc))
    (o : MergeOptions) (h : (se.map Prod.fst).Nodup) :
    mergeDeep (.map te) (.map se) o = .map (mergeEntries te se o) ∧
    ∀ k, lookupKey (mergeEntries te se o) k =
      match lookupKey se k with
      | some sv => some ((lookupKey te k).elim sv fun tv => mergeDeep tv sv o)
      | none => lookupKey te k := by
  exact ⟨by simp [mergeDeep], fun k => lookup_mergeEntries o se te h k⟩

/-- Witness for C2 on `{a:1, b:2} ∪ {b:3, c:4}`: `b` is merged
recursively (scalar collision: source wins), `c` is inserted, `a` is
untouched. -/
theorem merge_mapping_characterization_witness :
    mergeDeep (.map [("a", .num 1), ("b", .num 2)])
        (.map [("b", .num 3), ("c", .num 4)]) { arrayStrategy := none } =
      .map (mergeEntries [("a", .num 1), ("b", .num 2)]
              [("b", .num 3), ("c", .num 4)] { arrayStrategy := none }) ∧
    lookupKey (mergeEntries [("a", .num 1), ("b", .num 2)]
        [("b", .num 3), ("c", .num 4)] { arrayStrategy := none }) "b" =
      some (mergeDeep (.num 2) (.num 3) { arrayStrategy := none }) ∧
    lookupKey (mergeEntries [("a", .num 1), ("b", .num 2)]
        [("b", .num 3), ("c", .num 4)] { arrayStrategy := none }) "a" =
      some (.num 1) ∧
    lookupKey (mergeEntries [("a", .num 1), ("b", .num 2)]
        [("b", .num 3), ("c", .num 4)] { arrayStrategy := none }) "c" =
      some (.num 4) := by
  have h := merge_mapping_characterization [("a", .num 1), ("b", .num 2)]
    [("b", .num 3), ("c", .num 4)] { arrayStrategy := none } (by simp)
  refine ⟨h.1, ?_, ?_, ?_⟩
  · rw [h.2 "b"]; simp [lookupKey]
  · rw [h.2 "a"]; simp [lookupKey]
  · rw [h.2 "c"]; simp [lookupKey]

/-! ## Termination: the fuel-indexed recursions converge -/

theorem mergeEntriesFuel_eq (o : MergeOptions) (n : Nat)
    (hIH : ∀ t s, depthD s ≤ n → mergeDeepFuel n t s o = some (mergeDeep t s o)) :
    ∀ (src out : List (String × Doc)), depthEntries src ≤ n →
      mergeEntriesFuel n out src o = some (mergeEntries out src o) := by
  intro src
  induction src with
  | nil => intro out _; simp [mergeEntriesFuel, mergeEntries]
  | cons e rest ih =>
      obtain ⟨k, v⟩ := e
      intro out hd
      simp only [depthEntries] at hd
      have hv : depthD v ≤ n := le_trans (le_max_left _ _) hd
      have hr : depthEntries rest ≤ n := le_trans (le_max_right _ _) hd
      cases hout : lookupKey out k with
      | some prev =>
          simp only [mergeEntriesFuel, mergeEntries, hout, hIH prev v hv]
          exact ih _ hr
      | none =>
          simp only [mergeEntriesFuel, mergeEntries, hout]
          exact ih _ hr

theorem mergeDeepFuel_eq :
    ∀ (n : Nat) (t s : Doc) (o : MergeOptions), depthD s ≤ n →
      mergeDeepFuel n t s o = some (mergeDeep t s o) := by
  intro n
  induction n with
  | zero =>
      intro t s o hd
      cases t <;> cases s <;> simp_all [mergeDeepFuel, mergeDeep, depthD]
  | succ m ih =>
      intro t s o hd
      cases t <;> cases s
      case map.map te se =>
        have hse : depthEntries se ≤ m := by
          simp only [depthD] at hd; omega
        simp only [mergeDeepFuel, mergeDeep]
        rw [mergeEntriesFuel_eq o m (fun t' s' h' => ih t' s' o h') se te hse]
        rfl
      all_goals simp [mergeDeepFuel, mergeDeep]

theorem walkSeqFuel_eq (opts : RedactOptions) (m : Nat)
    (hIH : ∀ p d, depthD d ≤ m → walkFuel opts m p d = some (walk opts p d)) :
    ∀ (xs : List Doc) (p : List String) (i : Nat), depthList xs ≤ m →
      walkSeqFuel opts m p i xs = some (walkSeq opts p i xs) := by
  intro xs
  induction xs with
  | nil => intro p i _; simp [walkSeqFuel, walkSeq]
  | cons x xs ih =>
      intro p i hd
      simp only [depthList] at hd
      have hx : depthD x ≤ m := le_trans (le_max_left _ _) hd
      have hxs : depthList xs ≤ m := le_trans (le_max_right _ _) hd
      simp only [walkSeqFuel, walkSeq, hIH _ x hx, ih p (i + 1) hxs]
      rfl

theorem walkMapFuel_eq (opts : RedactOptions) (m : Nat)
    (hIH : ∀ p d, depthD d ≤ m → walkFuel opts m p d = some (walk opts p d)) :
    ∀ (es : List (String × Doc)) (p : List String), depthEntries es ≤ m →
      walkMapFuel opts m p es = some (walkMap opts p es) := by
  intro es
  induction es with
  | nil => intro p _; simp [walkMapFuel, walkMap]
  | cons e es ih =>
      obtain ⟨k, v⟩ := e
      intro p hd
      simp only [depthEntries] at hd
      have hv : depthD v ≤ m := le_trans (le_max_left _ _) hd
      have hes : depthEntries es ≤ m := le_trans (le_max_right _ _) hd
      cases hhit : redactHit opts p k with
      | true => simp [walkMapFuel, walkMap, hhit, ih p hes]
      | false =>
          simp only [walkMapFuel, walkMap, hhit, Bool.false_eq_true, if_false,
                     hIH _ v hv, ih p hes]
          rfl

theorem walkFuel_eq :
    ∀ (n : Nat) (opts : RedactOptions) (p : List String) (d : Doc),
      depthD d ≤ n → walkFuel opts n p d = some (walk opts p d) := by
  intro n
  induction n with
  | zero =>
      intro opts p d hd
      cases d <;> simp_all [walkFuel, walk, depthD]
  | succ m ih =>
      intro opts p d hd
      cases d
      case seq xs =>
        have hxs : depthList xs ≤ m := by simp only [depthD] at hd; omega
        simp only [walkFuel, walk_seq_eq,
                   walkSeqFuel_eq opts m (fun p' d' h' => ih opts p' d' h') xs p 0 hxs]
        rfl
      case map es =>
        have hes : depthEntries es ≤ m := by simp only [depthD] at hd; omega
        simp only [walkFuel, walk_map_eq,
                   walkMapFuel_eq opts m (fun p' d' h' => ih opts p' d' h') es p hes]
        rfl
      all_goals simp [walkFuel, walk]

/-- C8: `mergeDeep` and `redact` are total: on every finite document
tree the recursion converges within fuel bounded by the source /
document nesting depth, returning a document — no document shape makes
either function fail. -/
theorem merge_redact_total (t s d : Doc) (o : MergeOptions) (ro : RedactOptions) :
    mergeDeepFuel (depthD s) t s o = some (mergeDeep t s o) ∧
    redactFuel (depthD d) d ro = some (redact d ro) :=
  ⟨mergeDeepFuel_eq (depthD s) t s o le_rfl,
   walkFuel_eq (depthD d) ro [] d le_rfl⟩

/-! ## Key-sorter lemmas -/

theorem sortKeysDeep_seq_eq (xs : List Doc) :
    sortKeysDeep (.seq xs) = .seq (xs.map sortKeysDeep) := by
  rw [sortKeysDeep]
  congr 1
  exact List.attach_map_val xs sortKeysDeep

theorem sortKeysDeep_map_eq (es : List (String × Doc)) :
    sortKeysDeep (.map es) =
      .map ((es.mergeSort keyLe).map fun e => (e.1, sortKeysDeep e.2)) := by
  rw [sortKeysDeep]
  congr 1
  exact List.attach_map_val (es.mergeSort keyLe) fun e => (e.1, sortKeysDeep e.2)

theorem wfDoc_seq_eq (xs : List Doc) : wfDoc (.seq xs) = xs.all wfDoc := by
  rw [wfDoc]
  exact attach_all_eq xs wfDoc

theorem wfDoc_map_eq (es : List (String × Doc)) :
    wfDoc (.map es) =
      (decide ((es.map Prod.fst).Nodup) && es.all fun e => wfDoc e.2) := by
  rw [wfDoc]
  congr 1
  exact attach_all_eq es fun e => wfDoc e.2

theorem sortedDeep_seq_eq (xs : List Doc) :
    sortedDeep (.seq xs) = xs.all sortedDeep := by
  rw [sortedDeep]
  exact attach_all_eq xs sortedDeep

theorem sortedDeep_map_eq (es : List (String × Doc)) :
    sortedDeep (.map es) =
      (strictKeySorted es && es.all fun e => sortedDeep e.2) := by
  rw [sortedDeep]
  congr 1
  exact attach_all_eq es fun e => sortedDeep e.2

theorem keyLe_trans : ∀ a b c : String × Doc, keyLe a b → keyLe b c → keyLe a c := by
  intro a b c hab hbc
  simp only [keyLe, decide_eq_true_eq] at *
  exact le_trans hab hbc

theorem keyLe_total : ∀ a b : String × Doc, keyLe a b || keyLe b a := by
  intro a b
  simp only [keyLe, Bool.or_eq_true, decide_eq_true_eq]
  exact le_total a.1 b.1

theorem pairwise_keyLe_mergeSort (es : List (String × Doc)) :
    (es.mergeSort keyLe).Pairwise fun a b => keyLe a b :=
  List.sorted_mergeSort keyLe_trans keyLe_total es

theorem strictKeySorted_of (l : List (String × Doc))
    (hs : l.Pairwise fun a b => keyLe a b) (hn : (l.map Prod.fst).Nodup) :
    strictKeySorted l = true := by
  induction l with
  | nil => rfl
  | cons a l ih =>
      have hs' := List.pairwise_cons.1 hs
      rw [List.map_cons] at hn
      have hn' := List.nodup_cons.1 hn
      cases l with
      | nil => rfl
      | cons b rest =>
          rw [strictKeySorted, Bool.and_eq_true, decide_eq_true_eq]
          refine ⟨?_, ih hs'.2 hn'.2⟩
          have hab : keyLe a b := hs'.1 b (by simp)
          have hne : a.1 ≠ b.1 := fun hEq => hn'.1 (by rw [hEq]; simp)
          simp only [keyLe, decide_eq_true_eq] at hab
          exact lt_of_le_of_ne hab hne

theorem sorted_entries_of_sorted_map (es : List (String × Doc)) :
    ((es.mergeSort keyLe).map fun e => (e.1, sortKeysDeep e.2)).Pairwise
      fun a b => keyLe a b := by
  rw [List.pairwise_map]
  exact pairwise_keyLe_mergeSort es

theorem sortKeysDeep_idem : ∀ d : Doc, sortKeysDeep (sortKeysDeep d) = sortKeysDeep d := by
  intro d
  induction d using Doc.induct with
  | hnull => simp [sortKeysDeep]
  | hbool b => simp [sortKeysDeep]
  | hnum n => simp [sortKeysDeep]
  | hstr s => simp [sortKeysDeep]
  | hseq xs ih =>
      rw [sortKeysDeep_seq_eq, sortKeysDeep_seq_eq, List.map_map]
      congr 1
      apply List.map_congr_left
      intro x hx
      exact ih x hx
  | hmap es ih =>
      rw [sortKeysDeep_map_eq, sortKeysDeep_map_eq,
          List.mergeSort_of_sorted (sorted_entries_of_sorted_map es), List.map_map]
      congr 1
      apply List.map_congr_left
      intro e he
      have he' : e ∈ es := List.mem_mergeSort.1 he
      simp [ih e he']

theorem sortedDeep_sortKeysDeep :
    ∀ d : Doc, wfDoc d = true → sortedDeep (sortKeysDeep d) = true := by
  intro d
  induction d using Doc.induct with
  | hnull => intro _; simp [sortKeysDeep, sortedDeep]
  | hbool b => intro _; simp [sortKeysDeep, sortedDeep]
  | hnum n => intro _; simp [sortKeysDeep, sortedDeep]
  | hstr s => intro _; simp [sortKeysDeep, sortedDeep]
  | hseq xs ih =>
      intro hwf
      rw [wfDoc_seq_eq, List.all_eq_true] at hwf
      rw [sortKeysDeep_seq_eq, sortedDeep_seq_eq, List.all_eq_true]
      intro y hy
      rw [List.mem_map] at hy
      obtain ⟨x, hx, rfl⟩ := hy
      exact ih x hx (hwf x hx)
  | hmap es ih =>
      intro hwf
      rw [wfDoc_map_eq, Bool.and_eq_true, decide_eq_true_eq, List.all_eq_true] at hwf
      rw [sortKeysDeep_map_eq, sortedDeep_map_eq, Bool.and_eq_true, List.all_eq_true]
      constructor
      · apply strictKeySorted_of _ (sorted_entries_of_sorted_map es)
        have hkeys :
            (((es.mergeSort keyLe).map fun e => (e.1, sortKeysDeep e.2)).map Prod.fst)
              = (es.mergeSort keyLe).map Prod.fst := by
          rw [List.map_map]
          rfl
        rw [hkeys]
        exact ((List.mergeSort_perm es keyLe).map Prod.fst).nodup_iff.2 hwf.1
      · intro e' he'
        rw [List.mem_map] at he'
        obtain ⟨e, he, rfl⟩ := he'
        have heEs : e ∈ es := List.mem_mergeSort.1 he
        exact ih e heEs (hwf.2 e heEs)

/-- C9: `sortKeysDeep` is idempotent; on a Mapping it reorders the
entries ascending by key (stable merge sort under the total-order model
of `localeCompare`) and recurses into the values, so on key-unique
documents every Mapping of the result is strictly ascending at every
level; Sequences keep their element order with each element recursively
sorted; scalars pass through unchanged. -/
theorem sortKeysDeep_idempotent_and_sorted (d : Doc) :
    sortKeysDeep (sortKeysDeep d) = sortKeysDeep d ∧
    (wfDoc d = true → sortedDeep (sortKeysDeep d) = true) ∧
    (∀ es, sortKeysDeep (.map es) =
       .map ((es.mergeSort keyLe).map fun e => (e.1, sortKeysDeep e.2))) ∧
    (∀ xs, sortKeysDeep (.seq xs) = .seq (xs.map sortKeysDeep)) ∧
    sortKeysDeep .null = .null ∧
    (∀ b, sortKeysDeep (.bool b) = .bool b) ∧
    (∀ n, sortKeysDeep (.num n) = .num n) ∧
    (∀ s, sortKeysDeep (.str s) = .str s) :=
  ⟨sortKeysDeep_idem d, sortedDeep_sortKeysDeep d, sortKeysDeep_map_eq,
   sortKeysDeep_seq_eq, by simp [sortKeysDeep], fun b => by simp [sortKeysDeep],
   fun n => by simp [sortKeysDeep], fun s => by simp [sortKeysDeep]⟩

/-- Witness for C9 on `{b:1, a:{d:2, c:3}}`: the document is
key-unique, and the sorted result is strictly ascending everywhere. -/
theorem sortKeysDeep_idempotent_and_sorted_witness :
    wfDoc (.map [("b", .num 1), ("a", .map [("d", .num 2), ("c", .num 3)])]) = true ∧
    sortedDeep (sortKeysDeep
      (.map [("b", .num 1), ("a", .map [("d", .num 2), ("c", .num 3)])])) = true := by
  have hwf : wfDoc
      (.map [("b", .num 1), ("a", .map [("d", .num 2), ("c", .num 3)])]) = true := by
    simp [wfDoc_map_eq, wfDoc]
  exact ⟨hwf,
    (sortKeysDeep_idempotent_and_sorted
      (.map [("b", .num 1), ("a", .map [("d", .num 2), ("c", .num 3)])])).2.1 hwf⟩

end Allcoder
